import Mathlib

/-!
Shallow embedding of the spaced-repetition core of the bicagold repository
(an Arabic-learning browser extension) and proofs about its scheduler,
review queue and progress tracker.

Modelling conventions:
* JavaScript numbers are modelled as `ℚ` (all arithmetic in the core is
  addition/subtraction/multiplication/division of small decimals, where
  rationals agree with the algorithm's intent).
* `Date` timestamps are modelled as `ℤ` milliseconds since the epoch;
  calendar days (ISO `YYYY-MM-DD` strings, compared with `localeCompare`)
  are modelled as `ℤ` day numbers, which preserves both equality and order.
* Fallible store access (IndexedDB via promises) is modelled with
  `Except String`; a thrown error is `Except.error`, `try/catch` is a
  `match` on the body's result.
-/

/-- `Math.round x` in JavaScript: round half towards positive infinity. -/
def jsRound (x : ℚ) : ℤ := ⌊x + 1/2⌋

/-- `Math.ceil x` in JavaScript. -/
def jsCeil (x : ℚ) : ℤ := ⌈x⌉

/-- `1000 * 60 * 60 * 24` milliseconds in a day. -/
def msPerDay : ℤ := 86400000

/-- `1 * 60 * 60 * 1000` milliseconds in an hour. -/
def msPerHour : ℤ := 3600000

/-- The scheduling-relevant fields of a `ReviewItem`
(interface in the spaced-repetition module). `lastReviewed`, `easeFactor`
are optional in the source; `nextReview` is read through a non-null
assertion only in the branch where `lastReviewed` is present, so it is
modelled as always present. -/
structure ReviewItem where
  lastReviewed : Option ℤ
  nextReview : ℤ
  easeFactor : Option ℚ
deriving DecidableEq

/-- Return type of `calculateNextReview`. -/
structure ScheduleResult where
  nextReview : ℤ
  easeFactor : ℚ
  interval : ℤ
deriving DecidableEq

/-- `calculateNextReview` from the spaced-repetition module: the SM-2
derived graded-quality scheduler. `quality` is clamped into `[0, 5]`;
on a repeat review the ease factor is recomputed (note: the source clamps
it only from below at `1.3`, there is no upper clamp here) and the new
interval is `1` for `quality < 3`, else derived from the previous interval
`Math.ceil((nextReview - lastReviewed) / msPerDay)`. On a first review the
interval is `3`/`2`/`1` by quality band and the ease factor is returned
unchanged. `item.easeFactor || 2.5` in JS treats `0` as falsy, hence the
explicit zero test. -/
def calculateNextReview (item : ReviewItem) (quality : ℚ) (now : ℤ) :
    ScheduleResult :=
  let quality := max 0 (min 5 quality)
  let easeFactor : ℚ :=
    match item.easeFactor with
    | some e => if e = 0 then 2.5 else e
    | none => 2.5
  match item.lastReviewed with
  | some last =>
    let easeFactor' :=
      max 1.3 (easeFactor + (0.1 - (5 - quality) * (0.08 + (5 - quality) * 0.02)))
    let interval : ℤ :=
      if quality < 3 then 1
      else
        let previousInterval := jsCeil (((item.nextReview - last : ℤ) : ℚ) / (msPerDay : ℚ))
        if previousInterval = 1 then 6
        else if previousInterval = 6 then jsRound ((previousInterval : ℚ) * easeFactor')
        else jsRound ((previousInterval : ℚ) * easeFactor')
    ⟨now + interval * msPerDay, easeFactor', interval⟩
  | none =>
    let interval : ℤ := if 4 ≤ quality then 3 else if 3 ≤ quality then 2 else 1
    ⟨now + interval * msPerDay, easeFactor, interval⟩

/-- `UserProgress` record from `database.ts` (the per-word review state
stored in the `progress` object store). -/
structure UserProgress where
  wordId : ℕ
  correctCount : ℕ
  incorrectCount : ℕ
  lastReviewed : ℤ
  nextReview : ℤ
  easeFactor : ℚ
deriving DecidableEq

/-- The default progress record created by `updateVocabularyProgress` when
no record exists yet: zero counters, `lastReviewed = new Date(0)`,
`nextReview = new Date()` (now), ease factor `2.5`. -/
def defaultProgress (wordId : ℕ) (now : ℤ) : UserProgress :=
  ⟨wordId, 0, 0, 0, now, 2.5⟩

/-- The state transition of `updateVocabularyProgress` from `database.ts`
(the binary correct/incorrect update path), acting on an existing progress
record. On `correct`: bump `correctCount`, ease factor `min (+0.1) 3.0`,
next review in `Math.round(correctCount * easeFactor)` days. Otherwise:
bump `incorrectCount`, ease factor `max (-0.2) 1.3`, next review in one
hour. `lastReviewed` is set to `now` in both cases. -/
def updateVocabularyProgress (p : UserProgress) (correct : Bool) (now : ℤ) :
    UserProgress :=
  if correct then
    let correctCount := p.correctCount + 1
    let easeFactor := min (p.easeFactor + 0.1) 3.0
    let days := jsRound ((correctCount : ℚ) * easeFactor)
    { p with correctCount := correctCount, easeFactor := easeFactor,
             lastReviewed := now, nextReview := now + days * msPerDay }
  else
    let incorrectCount := p.incorrectCount + 1
    let easeFactor := max (p.easeFactor - 0.2) 1.3
    { p with incorrectCount := incorrectCount, easeFactor := easeFactor,
             lastReviewed := now, nextReview := now + msPerHour }

/-- The fields of `VocabularyItem` from `database.ts` that the review
queue handles (the remaining optional metadata fields play no role in any
operation modelled here). -/
structure VocabItem where
  id : ℕ
  word : String
  transliteration : String
  translation : String
  difficulty : String
  tags : List String
deriving DecidableEq

/-- Order of the IndexedDB `nextReview` index on the `progress` store:
entries are iterated by index key (`nextReview`) ascending, ties broken by
primary key (`wordId`). -/
def progressIndexLE (p q : UserProgress) : Prop :=
  p.nextReview < q.nextReview ∨ (p.nextReview = q.nextReview ∧ p.wordId ≤ q.wordId)

instance : DecidableRel progressIndexLE := fun p q =>
  inferInstanceAs (Decidable (p.nextReview < q.nextReview ∨
    (p.nextReview = q.nextReview ∧ p.wordId ≤ q.wordId)))

/-- `getVocabularyForReview` from `database.ts`: query the `progress`
store's `nextReview` index with `IDBKeyRange.upperBound(now)` (inclusive)
and `limit`, then map each due record to its vocabulary item and drop the
missing ones (`.filter(Boolean)`). The store is modelled as the list of
progress records plus a lookup function for vocabulary items. -/
def getVocabularyForReview (progress : List UserProgress)
    (vocab : ℕ → Option VocabItem) (now : ℤ) (limit : ℕ) : List VocabItem :=
  let dueItems :=
    ((progress.filter (fun p => p.nextReview ≤ now)).insertionSort
      progressIndexLE).take limit
  (dueItems.map (fun p => vocab p.wordId)).filterMap id

/-- `DailyProgress` entry from `progressAnalytics.ts`: one row of the
`progressHistory` setting. The ISO `YYYY-MM-DD` date string is modelled
as a day number (string comparison on such strings agrees with day
order). -/
structure DailyProgress where
  date : ℤ
  reviewCount : ℕ
  correctCount : ℕ
deriving DecidableEq

/-- The upsert step of `updateDailyProgress`: find the entry for `date`
and bump its counters in place, or push a fresh `⟨date, 1, 0 or 1⟩` entry
at the end if none exists. -/
def upsertDaily (date : ℤ) (correct : Bool) :
    List DailyProgress → List DailyProgress
  | [] => [⟨date, 1, if correct then 1 else 0⟩]
  | e :: rest =>
    if e.date = date then
      ⟨e.date, e.reviewCount + 1,
        e.correctCount + (if correct then 1 else 0)⟩ :: rest
    else
      e :: upsertDaily date correct rest

/-- The sort order used by `updateDailyProgress`:
`(a, b) => b.date.localeCompare(a.date)`, i.e. descending by date. -/
def dailyDescLE (a b : DailyProgress) : Prop := b.date ≤ a.date

instance : DecidableRel dailyDescLE := fun a b =>
  inferInstanceAs (Decidable (b.date ≤ a.date))

instance : IsTotal DailyProgress dailyDescLE :=
  ⟨fun a b => (le_total b.date a.date).imp id id⟩

instance : IsTrans DailyProgress dailyDescLE :=
  ⟨fun _ _ _ hab hbc => le_trans hbc hab⟩

/-- The pure state transition of `updateDailyProgress` from
`progressAnalytics.ts`: upsert today's entry, sort descending by date
(JS `Array.prototype.sort` is a stable comparator sort; modelled with a
stable sort) and keep only the first 30 entries. -/
def updateDailyProgress (date : ℤ) (correct : Bool)
    (history : List DailyProgress) : List DailyProgress :=
  ((upsertDaily date correct history).insertionSort dailyDescLE).take 30

/-- A run of the daily-history upsert over a sequence of review events
`(calendar day, correct)`, starting from an empty history. -/
def foldHistory (events : List (ℤ × Bool)) : List DailyProgress :=
  events.foldl (fun h e => updateDailyProgress e.1 e.2 h) []

/-- `LearningStats` from `progressAnalytics.ts`. `lastReviewDate` holds
the calendar day of the stored ISO instant (`none` models `null`); only
the calendar-day part of the stored instant is ever compared. -/
structure LearningStats where
  totalWords : ℕ
  learnedWords : ℕ
  reviewsToday : ℕ
  reviewsTotal : ℕ
  correctAnswers : ℕ
  incorrectAnswers : ℕ
  streak : ℕ
  lastReviewDate : Option ℤ
deriving DecidableEq

/-- The stats returned by `getLearningStats` when nothing is stored yet
(every setting absent, `null || 0` giving the defaults), which is also
its catch-branch fallback value. -/
def defaultLearningStats : LearningStats :=
  ⟨1000, 0, 0, 0, 0, 0, 0, none⟩

/-- The pure state transition of `updateLearningStats` from
`progressAnalytics.ts`: fold one review outcome on calendar day `today`
into the aggregate stats. The redundant `else if` of the source's streak
update is kept as written. -/
def updateLearningStats (stats : LearningStats) (today : ℤ) (correct : Bool) :
    LearningStats :=
  let isNewDay : Bool :=
    match stats.lastReviewDate with
    | none => true
    | some d => d != today
  let reviewsToday := if isNewDay then 1 else stats.reviewsToday + 1
  let streak :=
    if isNewDay then
      if (match stats.lastReviewDate with
          | some d => d == today - 1
          | none => false) then
        stats.streak + 1
      else if (match stats.lastReviewDate with
          | some d => d != today
          | none => true) then
        1
      else stats.streak
    else stats.streak
  let correctAnswers :=
    if correct then stats.correctAnswers + 1 else stats.correctAnswers
  let incorrectAnswers :=
    if correct then stats.incorrectAnswers else stats.incorrectAnswers + 1
  let learnedWords := min stats.totalWords (correctAnswers / 3)
  { totalWords := stats.totalWords
    learnedWords := learnedWords
    reviewsToday := reviewsToday
    reviewsTotal := stats.reviewsTotal + 1
    correctAnswers := correctAnswers
    incorrectAnswers := incorrectAnswers
    streak := streak
    lastReviewDate := some today }

/-- A value held by the `settings` object store under a well-known key:
a numeric counter, an ISO instant (modelled by its calendar day), the
`progressHistory` array, or `null` for an absent setting. -/
inductive SettingVal where
  | num (n : ℕ)
  | date (d : ℤ)
  | hist (h : List DailyProgress)
  | null
deriving DecidableEq

/-- `await getSetting(k) || 0` on a numeric setting: any non-numeric or
absent value falls back to `0`. -/
def numOr0 : SettingVal → ℕ
  | .num n => n
  | _ => 0

/-- `lastReviewDateStr ? new Date(lastReviewDateStr) : null`. -/
def dateOrNone : SettingVal → Option ℤ
  | .date d => some d
  | _ => none

/-- `await getSetting('progressHistory') || []`. -/
def histOrNil : SettingVal → List DailyProgress
  | .hist h => h
  | _ => []

/-- `getLearningStats` from `progressAnalytics.ts`, with the store's
`getSetting` modelled as an oracle `g` that may fail. The body reads the
seven settings in source order; the surrounding `try/catch` converts any
store failure into the default stats. -/
def getLearningStatsE (g : String → Except String SettingVal) :
    Except String LearningStats :=
  let body : Except String LearningStats := do
    let learnedWords ← g "learnedWordsCount"
    let reviewsToday ← g "reviewsToday"
    let reviewsTotal ← g "reviewsTotal"
    let correctAnswers ← g "correctAnswers"
    let incorrectAnswers ← g "incorrectAnswers"
    let streak ← g "streak"
    let lastReviewDateStr ← g "lastReviewDate"
    pure ⟨1000, numOr0 learnedWords, numOr0 reviewsToday, numOr0 reviewsTotal,
      numOr0 correctAnswers, numOr0 incorrectAnswers, numOr0 streak,
      dateOrNone lastReviewDateStr⟩
  match body with
  | .ok s => .ok s
  | .error _ => .ok defaultLearningStats

/-- `updateDailyProgress` from `progressAnalytics.ts` as the store sees
it: read `progressHistory`, apply the pure upsert/sort/slice, write it
back. The surrounding `try/catch` only logs, so every store failure is
swallowed and the promise resolves. -/
def updateDailyProgressE (g : String → Except String SettingVal)
    (u : String → SettingVal → Except String Unit)
    (date : ℤ) (correct : Bool) : Except String Unit :=
  let body : Except String Unit := do
    let histVal ← g "progressHistory"
    u "progressHistory" (.hist (updateDailyProgress date correct (histOrNil histVal)))
  match body with
  | .ok _ => .ok ()
  | .error _ => .ok ()

/-- `updateLearningStats` from `progressAnalytics.ts` as the store sees
it: read the stats (via `getLearningStatsE`), fold the outcome with the
pure transition, write the seven settings back in source order, update the
daily history, and return the new stats. Its `catch` rethrows, so the body's
result is returned unchanged. -/
def updateLearningStatsE (g : String → Except String SettingVal)
    (u : String → SettingVal → Except String Unit)
    (today : ℤ) (correct : Bool) : Except String LearningStats :=
  let body : Except String LearningStats := do
    let stats ← getLearningStatsE g
    let s := updateLearningStats stats today correct
    u "learnedWordsCount" (.num s.learnedWords)
    u "reviewsToday" (.num s.reviewsToday)
    u "reviewsTotal" (.num s.reviewsTotal)
    u "correctAnswers" (.num s.correctAnswers)
    u "incorrectAnswers" (.num s.incorrectAnswers)
    u "streak" (.num s.streak)
    u "lastReviewDate" (.date today)
    updateDailyProgressE g u today correct
    pure s
  body

/-- `getDueReviews` from the spaced-repetition module: forward the result
of `getVocabularyForReview`, but its `catch` turns any store failure into
an empty array. -/
def getDueReviews (storeResult : Except String (List VocabItem)) :
    Except String (List VocabItem) :=
  match storeResult with
  | .ok items => .ok items
  | .error _ => .ok []

/-- The ease factor after `n` graded updates of quality 5 via
`calculateNextReview` on an already-reviewed item, feeding the returned
ease factor back into the item each time, starting from the default
`2.5`. -/
def gradedEaseIter : ℕ → ℚ
  | 0 => 2.5
  | n + 1 => (calculateNextReview ⟨some 0, 0, some (gradedEaseIter n)⟩ 5 0).easeFactor

/-- One scheduler update: either a graded-quality update via
`calculateNextReview` or a binary correct/incorrect update via
`updateVocabularyProgress`. -/
inductive SchedulerUpdate where
  | graded (quality : ℚ)
  | binary (correct : Bool)

/-- Apply one scheduler update to the current ease factor `e`: the graded
path runs `calculateNextReview` on an already-reviewed item carrying `e`,
the binary path runs `updateVocabularyProgress` on a progress record
carrying `e`; in both cases the resulting ease factor is taken. -/
def applyEase (e : ℚ) : SchedulerUpdate → ℚ
  | .graded q => (calculateNextReview ⟨some 0, 0, some e⟩ q 0).easeFactor
  | .binary c => (updateVocabularyProgress ⟨0, 0, 0, 0, 0, e⟩ c 0).easeFactor

/-- The ease factor after a sequence of scheduler updates, starting from
the default 2.5. -/
def easeAfter (updates : List SchedulerUpdate) : ℚ :=
  updates.foldl applyEase 2.5

/-! ## Theorems -/

/-- C9: for every prior review state (including the first-ever review) and
every quality strictly below 3, `calculateNextReview` returns interval 1. -/
theorem c9_low_quality_interval_one (item : ReviewItem) (q : ℚ) (now : ℤ)
    (h : q < 3) : (calculateNextReview item q now).interval = 1 := by
  have hq : max 0 (min 5 q) < 3 :=
    max_lt (by norm_num) (lt_of_le_of_lt (min_le_right 5 q) h)
  have h3 : ¬ (3 : ℚ) ≤ max 0 (min 5 q) := not_le.mpr hq
  have h4 : ¬ (4 : ℚ) ≤ max 0 (min 5 q) :=
    not_le.mpr (lt_of_lt_of_le hq (by norm_num))
  cases hl : item.lastReviewed <;>
    simp [calculateNextReview, hl, hq, h3, h4]

/-- Witness for C9 at a concrete input. -/
theorem c9_low_quality_interval_one_witness :
    (calculateNextReview ⟨none, 0, none⟩ 0 0).interval = 1 :=
  c9_low_quality_interval_one ⟨none, 0, none⟩ 0 0 (by norm_num)

/-- C6: the concrete scenario `easeFactor = 2.5`,
`lastReviewed = now - 6 days`, `nextReview = now`, `quality = 5` (with
`now = 518400000`, six days after the epoch): the previous interval
rounds up to 6, the new ease factor is 2.6 and the interval is
`round (6 * 2.6) = 16` days. -/
theorem c6_concrete_scenario :
    calculateNextReview ⟨some 0, 518400000, some 2.5⟩ 5 518400000
      = ⟨518400000 + 16 * msPerDay, 13/5, 16⟩
    ∧ jsCeil (((518400000 - 0 : ℤ) : ℚ) / (msPerDay : ℚ)) = 6 := by
  constructor <;> norm_num [calculateNextReview, jsCeil, jsRound, msPerDay]

/-- C5: behaviour of the binary update path on an existing review state.
On a correct outcome: `correctCount` is incremented, the ease factor rises
by exactly 0.1 clamped above at 3.0, and the next review is
`now + round(correctCount * easeFactor)` days using the post-update
values. On an incorrect outcome: `incorrectCount` is incremented, the
ease factor drops by 0.2 clamped below at 1.3, and the next review is one
hour from now. -/
theorem c5_binary_update_path (p : UserProgress) (now : ℤ) :
    ((updateVocabularyProgress p true now).correctCount = p.correctCount + 1
      ∧ (updateVocabularyProgress p true now).incorrectCount = p.incorrectCount
      ∧ (p.easeFactor + 0.1 ≤ 3 →
          (updateVocabularyProgress p true now).easeFactor = p.easeFactor + 0.1)
      ∧ (3 ≤ p.easeFactor + 0.1 →
          (updateVocabularyProgress p true now).easeFactor = 3)
      ∧ (updateVocabularyProgress p true now).nextReview =
          now + jsRound (((updateVocabularyProgress p true now).correctCount : ℚ)
            * (updateVocabularyProgress p true now).easeFactor) * msPerDay)
    ∧ ((updateVocabularyProgress p false now).incorrectCount = p.incorrectCount + 1
      ∧ (updateVocabularyProgress p false now).correctCount = p.correctCount
      ∧ (1.3 ≤ p.easeFactor - 0.2 →
          (updateVocabularyProgress p false now).easeFactor = p.easeFactor - 0.2)
      ∧ (p.easeFactor - 0.2 ≤ 1.3 →
          (updateVocabularyProgress p false now).easeFactor = 1.3)
      ∧ (updateVocabularyProgress p false now).nextReview = now + msPerHour) := by
  constructor
  · refine ⟨?_, ?_, ?_, ?_, ?_⟩
    · simp [updateVocabularyProgress]
    · simp [updateVocabularyProgress]
    · intro h
      simp only [updateVocabularyProgress, if_pos]
      exact min_eq_left (by linarith)
    · intro h
      simp only [updateVocabularyProgress, if_pos]
      rw [min_eq_right (le_trans (show (3.0 : ℚ) ≤ 3 by norm_num) h)]
      norm_num
    · simp [updateVocabularyProgress]
  · refine ⟨?_, ?_, ?_, ?_, ?_⟩
    · simp [updateVocabularyProgress]
    · simp [updateVocabularyProgress]
    · intro h
      simp only [updateVocabularyProgress, if_neg]
      exact max_eq_left (by linarith)
    · intro h
      simp only [updateVocabularyProgress, if_neg]
      exact max_eq_right (le_trans h (by norm_num))
    · simp [updateVocabularyProgress]

/-- Witness for C5 at a concrete input. -/
theorem c5_binary_update_path_witness :
    (updateVocabularyProgress ⟨3, 0, 0, 0, 0, 2.5⟩ true 0).easeFactor = 2.5 + 0.1
    ∧ (updateVocabularyProgress ⟨3, 0, 0, 0, 0, 2.5⟩ false 0).easeFactor = 2.5 - 0.2 :=
  ⟨(c5_binary_update_path ⟨3, 0, 0, 0, 0, 2.5⟩ 0).1.2.2.1 (by norm_num),
   (c5_binary_update_path ⟨3, 0, 0, 0, 0, 2.5⟩ 0).2.2.2.1 (by norm_num)⟩

/-- C3 counterexample: on the degenerate prior state with
`lastReviewed = nextReview` (previous interval 0), quality 5 yields
interval `round(0 * 2.6) = 0` while quality 2 yields interval 1, so the
claimed strict monotonicity fails for this prior state. -/
theorem c3_quality_monotonicity_counterexample :
    (calculateNextReview ⟨some 0, 0, some 2.5⟩ 5 0).interval = 0
    ∧ (calculateNextReview ⟨some 0, 0, some 2.5⟩ 2 0).interval = 1
    ∧ ¬ ((calculateNextReview ⟨some 0, 0, some 2.5⟩ 2 0).interval <
        (calculateNextReview ⟨some 0, 0, some 2.5⟩ 5 0).interval) := by
  refine ⟨?_, ?_, ?_⟩ <;>
    norm_num [calculateNextReview, jsCeil, jsRound, msPerDay]

/-- `Math.round` of anything at least 2.6 is at least 3. -/
theorem jsRound_ge_three {x : ℚ} (h : 2.6 ≤ x) : 3 ≤ jsRound x := by
  unfold jsRound
  rw [Int.le_floor]
  push_cast
  linarith

/-- C3 (amended): quality-vs-interval monotonicity holds whenever the
prior state is consistent, i.e. `lastReviewed < nextReview` when the item
has been reviewed before (the source computes a previous interval of 0 and
hence a next interval of 0 on the degenerate state
`lastReviewed = nextReview`, breaking the claim as stated). For such
states, a call with quality at least 4 yields a strictly larger interval
than a call with quality at most 2 on the identical prior state. -/
theorem c3_quality_monotonicity_amended (item : ReviewItem) (q q' : ℚ)
    (now : ℤ)
    (hvalid : ∀ t, item.lastReviewed = some t → t < item.nextReview)
    (hq : 4 ≤ q) (hq' : q' ≤ 2) :
    (calculateNextReview item q' now).interval <
      (calculateNextReview item q now).interval := by
  have hcq'lt : max 0 (min 5 q') < 3 :=
    max_lt (by norm_num) (lt_of_le_of_lt (min_le_right 5 q') (by linarith))
  have h3' : ¬ (3 : ℚ) ≤ max 0 (min 5 q') := not_le.mpr hcq'lt
  have h4' : ¬ (4 : ℚ) ≤ max 0 (min 5 q') :=
    not_le.mpr (lt_of_lt_of_le hcq'lt (by norm_num))
  have hcq4 : (4 : ℚ) ≤ max 0 (min 5 q) :=
    le_max_of_le_right (le_min (by norm_num) hq)
  have hcq : ¬ (max 0 (min 5 q) < 3) :=
    not_lt.mpr (le_trans (by norm_num) hcq4)
  cases hl : item.lastReviewed with
  | none =>
    simp [calculateNextReview, hl, h3', h4', hcq4]
  | some last =>
    have hlt : last < item.nextReview := hvalid last hl
    simp only [calculateNextReview, hl]
    rw [if_pos hcq'lt, if_neg hcq]
    have hpipos :
        1 ≤ jsCeil (((item.nextReview - last : ℤ) : ℚ) / (msPerDay : ℚ)) := by
      have hfr : (0 : ℚ) < ((item.nextReview - last : ℤ) : ℚ) / (msPerDay : ℚ) := by
        apply div_pos
        · exact_mod_cast Int.sub_pos.mpr hlt
        · norm_num [msPerDay]
      have := Int.ceil_pos.mpr hfr
      unfold jsCeil
      omega
    by_cases hpi1 :
        jsCeil (((item.nextReview - last : ℤ) : ℚ) / (msPerDay : ℚ)) = 1
    · rw [if_pos hpi1]
      norm_num
    · rw [if_neg hpi1, ite_self]
      have hpi2 :
          2 ≤ jsCeil (((item.nextReview - last : ℤ) : ℚ) / (msPerDay : ℚ)) := by
        omega
      have h3le : 3 ≤ jsRound
          ((jsCeil (((item.nextReview - last : ℤ) : ℚ) / (msPerDay : ℚ)) : ℚ) *
            max 1.3 ((match item.easeFactor with
              | some e => if e = 0 then 2.5 else e
              | none => 2.5) +
              (0.1 - (5 - max 0 (min 5 q)) * (0.08 + (5 - max 0 (min 5 q)) * 0.02)))) := by
        apply jsRound_ge_three
        calc (2.6 : ℚ) = 2 * 1.3 := by norm_num
        _ ≤ _ := mul_le_mul (by exact_mod_cast hpi2) (le_max_left _ _)
            (by norm_num) (by exact_mod_cast le_trans (by norm_num) hpi2)
      omega

/-- Witness for the amended C3 at a concrete consistent prior state. -/
theorem c3_quality_monotonicity_amended_witness :
    (calculateNextReview ⟨some 0, 86400000, some 2.5⟩ 2 0).interval <
      (calculateNextReview ⟨some 0, 86400000, some 2.5⟩ 5 0).interval :=
  c3_quality_monotonicity_amended ⟨some 0, 86400000, some 2.5⟩ 5 2 0
    (by
      intro t ht
      injection ht with h
      rw [← h]
      show (0 : ℤ) < 86400000
      norm_num)
    (by norm_num) (by norm_num)

/-- C1 counterexample: six successive graded quality-5 updates starting
from the default ease factor 2.5 drive the ease factor to 3.1, outside
the claimed upper bound 3.0 (the graded path has no upper clamp). -/
theorem c1_ease_factor_bounds_counterexample :
    gradedEaseIter 6 = 3.1 ∧ ¬ gradedEaseIter 6 ≤ 3.0 := by
  have h6 : gradedEaseIter 6 = 3.1 := by
    norm_num [gradedEaseIter, calculateNextReview]
  exact ⟨h6, by rw [h6]; norm_num⟩

/-- Any single update keeps the ease factor at or above 1.3. -/
theorem applyEase_lower {e : ℚ} (he : 1.3 ≤ e) (u : SchedulerUpdate) :
    1.3 ≤ applyEase e u := by
  cases u with
  | graded q =>
    simp only [applyEase, calculateNextReview]
    exact le_max_left _ _
  | binary c =>
    cases c with
    | true =>
      simp only [applyEase, updateVocabularyProgress, if_pos]
      exact le_min (by linarith) (by norm_num)
    | false =>
      simp only [applyEase, updateVocabularyProgress, if_neg]
      exact le_max_right _ _

/-- A single binary update keeps the ease factor at or below 3.0. -/
theorem applyEase_binary_upper {e : ℚ} (he : e ≤ 3) (c : Bool) :
    applyEase e (.binary c) ≤ 3 := by
  cases c with
  | true =>
    simp only [applyEase, updateVocabularyProgress, if_pos]
    exact le_trans (min_le_right _ _) (by norm_num)
  | false =>
    simp only [applyEase, updateVocabularyProgress, if_neg]
    exact max_le (by linarith) (by norm_num)

/-- Lower bound through any fold of scheduler updates. -/
theorem easeFold_lower (l : List SchedulerUpdate) :
    ∀ e : ℚ, 1.3 ≤ e → 1.3 ≤ l.foldl applyEase e := by
  induction l with
  | nil => exact fun e he => he
  | cons u rest ih => exact fun e he => ih _ (applyEase_lower he u)

/-- Two-sided bound through any fold of binary-only updates. -/
theorem easeFold_binary_upper (l : List SchedulerUpdate) :
    ∀ e : ℚ, e ≤ 3 → (∀ u ∈ l, ∃ c, u = SchedulerUpdate.binary c) →
      l.foldl applyEase e ≤ 3 := by
  induction l with
  | nil => exact fun e he _ => he
  | cons u rest ih =>
    intro e he hbin
    obtain ⟨c, rfl⟩ := hbin u (List.mem_cons_self u rest)
    exact ih _ (applyEase_binary_upper he c)
      (fun v hv => hbin v (List.mem_cons_of_mem _ hv))

/-- C1 (amended): starting from the default ease factor 2.5, after any
sequence of scheduler updates (graded or binary) the ease factor is
always at least 1.3; if the sequence uses only binary updates it also
stays at most 3.0. The graded path has no upper clamp, so mixed sequences
can exceed 3.0 (see the counterexample). -/
theorem c1_ease_factor_bounds_amended (updates : List SchedulerUpdate) :
    1.3 ≤ easeAfter updates ∧
    ((∀ u ∈ updates, ∃ c, u = SchedulerUpdate.binary c) →
      easeAfter updates ≤ 3) :=
  ⟨easeFold_lower updates 2.5 (by norm_num),
   fun h => easeFold_binary_upper updates 2.5 (by norm_num) h⟩

/-- Witness for the amended C1 on a concrete binary-only sequence. -/
theorem c1_ease_factor_bounds_amended_witness :
    1.3 ≤ easeAfter [SchedulerUpdate.binary true, SchedulerUpdate.binary false]
    ∧ easeAfter [SchedulerUpdate.binary true, SchedulerUpdate.binary false] ≤ 3 :=
  ⟨(c1_ease_factor_bounds_amended _).1,
   (c1_ease_factor_bounds_amended
      [SchedulerUpdate.binary true, SchedulerUpdate.binary false]).2
     (by
       intro u hu
       simp only [List.mem_cons, List.not_mem_nil, or_false] at hu
       rcases hu with rfl | rfl
       · exact ⟨true, rfl⟩
       · exact ⟨false, rfl⟩)⟩

/-- C4: streak behaviour of the progress-tracking fold. Folding reviews
on calendar day 0, then day 1, then day 3 (skipping day 2) yields the
streak sequence 1, 2, 1; and in general the streak increments by one
exactly when the first review of a new day follows a last-review day
equal to the immediately preceding calendar day, resets to 1 on any other
new day (including no prior review), and is unchanged within a day. -/
theorem c4_streak_state_machine :
    ((updateLearningStats defaultLearningStats 0 true).streak = 1
      ∧ (updateLearningStats (updateLearningStats defaultLearningStats 0 true)
          1 true).streak = 2
      ∧ (updateLearningStats (updateLearningStats
          (updateLearningStats defaultLearningStats 0 true) 1 true)
          3 true).streak = 1)
    ∧ ∀ (stats : LearningStats) (today : ℤ) (correct : Bool),
      ((stats.lastReviewDate = some (today - 1) →
          (updateLearningStats stats today correct).streak = stats.streak + 1)
        ∧ (stats.lastReviewDate = some today →
          (updateLearningStats stats today correct).streak = stats.streak)
        ∧ ((∀ d, stats.lastReviewDate = some d → d ≠ today ∧ d ≠ today - 1) →
          (updateLearningStats stats today correct).streak = 1)) := by
  constructor
  · exact ⟨by decide, by decide, by decide⟩
  · intro stats today correct
    refine ⟨?_, ?_, ?_⟩
    · intro h
      have h1 : today - 1 ≠ today := by omega
      simp [updateLearningStats, h, h1]
    · intro h
      simp [updateLearningStats, h]
    · intro h
      cases hld : stats.lastReviewDate with
      | none => simp [updateLearningStats, hld]
      | some d =>
        obtain ⟨hd1, hd2⟩ := h d hld
        simp [updateLearningStats, hld, hd1, hd2]

/-- Witness for C4 at a concrete stats record (streak 7, last review on
the immediately preceding day). -/
theorem c4_streak_state_machine_witness :
    (updateLearningStats ⟨1000, 0, 0, 0, 0, 0, 7, some 4⟩ 5 true).streak = 7 + 1 :=
  (c4_streak_state_machine.2 ⟨1000, 0, 0, 0, 0, 0, 7, some 4⟩ 5 true).1
    (by norm_num)

/-- C7: the due-item query never returns a vocabulary item backed by a
progress record with `nextReview > now` (every returned item comes from a
record due at `now`), and when no record is due it returns the empty
list rather than failing. -/
theorem c7_due_query_bound (progress : List UserProgress)
    (vocab : ℕ → Option VocabItem) (now : ℤ) (limit : ℕ) :
    (∀ item ∈ getVocabularyForReview progress vocab now limit,
      ∃ p ∈ progress, p.nextReview ≤ now ∧ vocab p.wordId = some item)
    ∧ ((∀ p ∈ progress, now < p.nextReview) →
      getVocabularyForReview progress vocab now limit = []) := by
  constructor
  · intro item hitem
    simp only [getVocabularyForReview] at hitem
    rw [List.mem_filterMap] at hitem
    obtain ⟨a, ha, hae⟩ := hitem
    rw [List.mem_map] at ha
    obtain ⟨p, hp, hpa⟩ := ha
    have hp1 : p ∈ (progress.filter
        (fun p => p.nextReview ≤ now)).insertionSort progressIndexLE :=
      List.mem_of_mem_take hp
    rw [(List.perm_insertionSort progressIndexLE _).mem_iff] at hp1
    rw [List.mem_filter] at hp1
    exact ⟨p, hp1.1, by simpa using hp1.2, hpa ▸ hae⟩
  · intro h
    have hfil : progress.filter (fun p => p.nextReview ≤ now) = [] :=
      List.filter_eq_nil_iff.mpr
        (fun p hp => by simpa using not_le.mpr (h p hp))
    simp [getVocabularyForReview, hfil, List.insertionSort]

/-- Witness for C7: a single due record is linked to its item, and a
store with only future records yields the empty list. -/
theorem c7_due_query_bound_witness :
    (∃ p ∈ [(⟨1, 0, 0, 0, 5, 2.5⟩ : UserProgress)], p.nextReview ≤ 10 ∧
      (fun i => if i = 1 then some (⟨1, "", "", "", "", []⟩ : VocabItem)
        else none) p.wordId = some ⟨1, "", "", "", "", []⟩)
    ∧ getVocabularyForReview [(⟨1, 0, 0, 0, 5, 2.5⟩ : UserProgress)]
        (fun i => if i = 1 then some (⟨1, "", "", "", "", []⟩ : VocabItem)
          else none) (-1) 10 = [] :=
  ⟨(c7_due_query_bound [⟨1, 0, 0, 0, 5, 2.5⟩]
      (fun i => if i = 1 then some ⟨1, "", "", "", "", []⟩ else none) 10 10).1
      ⟨1, "", "", "", "", []⟩ (by decide),
   (c7_due_query_bound [⟨1, 0, 0, 0, 5, 2.5⟩]
      (fun i => if i = 1 then some ⟨1, "", "", "", "", []⟩ else none) (-1) 10).2
      (by decide)⟩

/-- Every entry of an upsert result carries either the upserted date or a
date already present in the input history. -/
theorem mem_upsertDaily_date {x : DailyProgress} {d : ℤ} {c : Bool} :
    ∀ {h : List DailyProgress}, x ∈ upsertDaily d c h →
      x.date = d ∨ x.date ∈ h.map DailyProgress.date := by
  intro h
  induction h with
  | nil =>
    intro hx
    simp only [upsertDaily, List.mem_singleton] at hx
    left
    rw [hx]
  | cons e rest ih =>
    intro hx
    by_cases hd : e.date = d
    · simp only [upsertDaily, if_pos hd] at hx
      rcases List.mem_cons.mp hx with rfl | hx'
      · left
        exact hd
      · right
        simp only [List.map_cons, List.mem_cons]
        exact Or.inr (List.mem_map.mpr ⟨x, hx', rfl⟩)
    · simp only [upsertDaily, if_neg hd] at hx
      rcases List.mem_cons.mp hx with rfl | hx'
      · right
        simp
      · rcases ih hx' with h1 | h1
        · exact Or.inl h1
        · right
          simp only [List.map_cons, List.mem_cons]
          exact Or.inr h1

/-- The upsert preserves pairwise-distinct dates. -/
theorem pairwiseNe_upsertDaily {d : ℤ} {c : Bool} :
    ∀ {h : List DailyProgress},
      h.Pairwise (fun a b => a.date ≠ b.date) →
      (upsertDaily d c h).Pairwise (fun a b => a.date ≠ b.date) := by
  intro h
  induction h with
  | nil =>
    intro _
    simp [upsertDaily]
  | cons e rest ih =>
    intro hp
    rw [List.pairwise_cons] at hp
    obtain ⟨he, hrest⟩ := hp
    by_cases hd : e.date = d
    · simp only [upsertDaily, if_pos hd]
      rw [List.pairwise_cons]
      exact ⟨fun b hb => he b hb, hrest⟩
    · simp only [upsertDaily, if_neg hd]
      rw [List.pairwise_cons]
      refine ⟨?_, ih hrest⟩
      intro b hb
      rcases mem_upsertDaily_date hb with h1 | h1
      · rw [h1]
        exact hd
      · obtain ⟨y, hy, hyd⟩ := List.mem_map.mp h1
        rw [← hyd]
        exact he y hy

/-- One daily-history write yields a strictly descending (hence
date-unique) history, provided the input history had pairwise-distinct
dates. -/
theorem updateDailyProgress_pairwise (d : ℤ) (c : Bool)
    (h : List DailyProgress)
    (hp : h.Pairwise (fun a b => a.date ≠ b.date)) :
    (updateDailyProgress d c h).Pairwise (fun a b => b.date < a.date) := by
  have hsorted :
      ((upsertDaily d c h).insertionSort dailyDescLE).Pairwise dailyDescLE :=
    List.sorted_insertionSort dailyDescLE _
  have hne :
      ((upsertDaily d c h).insertionSort dailyDescLE).Pairwise
        (fun a b => a.date ≠ b.date) :=
    ((List.perm_insertionSort dailyDescLE _).pairwise_iff
      (fun hxy => hxy.symm)).mpr (pairwiseNe_upsertDaily hp)
  have hcomb := (hsorted.and hne).imp
    (fun hab => lt_of_le_of_ne hab.1 (Ne.symm hab.2))
  exact List.Pairwise.sublist (List.take_sublist _ _) hcomb

/-- The sortedness/size invariant propagated through any run of
daily-history writes. -/
theorem foldHistory_sorted_aux (events : List (ℤ × Bool)) :
    ∀ h0 : List DailyProgress,
      h0.Pairwise (fun a b => b.date < a.date) → h0.length ≤ 30 →
      (events.foldl (fun h e => updateDailyProgress e.1 e.2 h) h0).Pairwise
          (fun a b => b.date < a.date)
        ∧ (events.foldl (fun h e => updateDailyProgress e.1 e.2 h) h0).length
            ≤ 30 := by
  induction events with
  | nil => exact fun h0 hp hl => ⟨hp, hl⟩
  | cons e rest ih =>
    intro h0 hp hl
    simp only [List.foldl_cons]
    apply ih
    · exact updateDailyProgress_pairwise e.1 e.2 h0
        (hp.imp (fun hab => ne_of_gt hab))
    · simp only [updateDailyProgress]
      exact List.length_take_le _ _

/-- C8: after any sequence of daily-history writes starting from an empty
history, the stored collection has at most 30 entries, at most one entry
per calendar date, and is sorted strictly descending by date. -/
theorem c8_daily_history_shape (events : List (ℤ × Bool)) :
    (foldHistory events).length ≤ 30
    ∧ ((foldHistory events).map DailyProgress.date).Nodup
    ∧ (foldHistory events).Pairwise (fun a b => b.date < a.date) := by
  obtain ⟨hp, hl⟩ := foldHistory_sorted_aux events [] (by simp) (by simp)
  refine ⟨hl, ?_, hp⟩
  show ((foldHistory events).map DailyProgress.date).Pairwise (fun a b => a ≠ b)
  rw [List.pairwise_map]
  exact hp.imp (fun hab => ne_of_gt hab)

/-- Counter sanity is preserved by one upsert: the touched entry gains one
review and at most one correct, a fresh entry starts at one review. -/
theorem upsertDaily_counts {d : ℤ} {c : Bool} :
    ∀ {h : List DailyProgress},
      (∀ e ∈ h, e.correctCount ≤ e.reviewCount ∧ 1 ≤ e.reviewCount) →
      ∀ e ∈ upsertDaily d c h,
        e.correctCount ≤ e.reviewCount ∧ 1 ≤ e.reviewCount := by
  intro h
  induction h with
  | nil =>
    intro _ e he
    simp only [upsertDaily, List.mem_singleton] at he
    rw [he]
    cases c <;> simp
  | cons x rest ih =>
    intro hall e he
    by_cases hd : x.date = d
    · simp only [upsertDaily, if_pos hd] at he
      rcases List.mem_cons.mp he with rfl | he'
      · have hx := hall x (List.mem_cons_self x rest)
        cases c <;> simp <;> omega
      · exact hall e (List.mem_cons_of_mem _ he')
    · simp only [upsertDaily, if_neg hd] at he
      rcases List.mem_cons.mp he with rfl | he'
      · exact hall e (List.mem_cons_self e rest)
      · exact ih (fun y hy => hall y (List.mem_cons_of_mem _ hy)) e he'

/-- Counter sanity is preserved by one full daily-history write. -/
theorem updateDailyProgress_counts (d : ℤ) (c : Bool)
    (h : List DailyProgress)
    (hall : ∀ e ∈ h, e.correctCount ≤ e.reviewCount ∧ 1 ≤ e.reviewCount) :
    ∀ e ∈ updateDailyProgress d c h,
      e.correctCount ≤ e.reviewCount ∧ 1 ≤ e.reviewCount := by
  intro e he
  simp only [updateDailyProgress] at he
  have h1 := List.mem_of_mem_take he
  rw [(List.perm_insertionSort dailyDescLE _).mem_iff] at h1
  exact upsertDaily_counts hall e h1

/-- Counter sanity propagated through any run of daily-history writes. -/
theorem foldHistory_counts_aux (events : List (ℤ × Bool)) :
    ∀ h0 : List DailyProgress,
      (∀ e ∈ h0, e.correctCount ≤ e.reviewCount ∧ 1 ≤ e.reviewCount) →
      ∀ e ∈ events.foldl (fun h e => updateDailyProgress e.1 e.2 h) h0,
        e.correctCount ≤ e.reviewCount ∧ 1 ≤ e.reviewCount := by
  induction events with
  | nil => exact fun h0 hall => hall
  | cons ev rest ih =>
    intro h0 hall
    simp only [List.foldl_cons]
    exact ih _ (updateDailyProgress_counts ev.1 ev.2 h0 hall)

/-- C10: after any sequence of daily-history upserts starting from an
empty history, every stored entry satisfies
`correctCount ≤ reviewCount` and `reviewCount ≥ 1`. -/
theorem c10_daily_history_counts (events : List (ℤ × Bool)) :
    ∀ e ∈ foldHistory events,
      e.correctCount ≤ e.reviewCount ∧ 1 ≤ e.reviewCount :=
  foldHistory_counts_aux events [] (by simp)

/-- Witness for C10 on a concrete one-event run. -/
theorem c10_daily_history_counts_witness :
    (⟨0, 1, 1⟩ : DailyProgress).correctCount
        ≤ (⟨0, 1, 1⟩ : DailyProgress).reviewCount
    ∧ 1 ≤ (⟨0, 1, 1⟩ : DailyProgress).reviewCount :=
  c10_daily_history_counts [(0, true)] ⟨0, 1, 1⟩ (by decide)

/-- `getLearningStats` never surfaces a store failure: both branches of
its `try/catch` resolve successfully. -/
theorem getLearningStatsE_ok (g : String → Except String SettingVal) :
    ∃ s, getLearningStatsE g = Except.ok s := by
  unfold getLearningStatsE
  dsimp only
  split
  · exact ⟨_, rfl⟩
  · exact ⟨_, rfl⟩

/-- C2 counterexample: a store failure during the due-item query is not
surfaced to the caller — `getDueReviews` converts it into a successful
empty result. -/
theorem c2_error_propagation_counterexample :
    getDueReviews (Except.error "storeFailure")
        = Except.ok ([] : List VocabItem)
    ∧ getDueReviews (Except.error "storeFailure")
        ≠ Except.error "storeFailure" := by
  refine ⟨rfl, ?_⟩
  simp [getDueReviews]

/-- C2 (amended): store failures during the progress-tracking fold's
write phase propagate unchanged to the caller (no retry, no default);
but the daily-history upsert always resolves successfully regardless of
store errors, the fold's read phase converts store failures into default
stats, and the due-item query converts store failures into an empty
result. -/
theorem c2_error_propagation_amended :
    (∀ (g : String → Except String SettingVal)
        (u : String → SettingVal → Except String Unit)
        (today : ℤ) (correct : Bool) (e : String),
        (∀ v, u "learnedWordsCount" v = Except.error e) →
        updateLearningStatsE g u today correct = Except.error e)
    ∧ (∀ (g : String → Except String SettingVal)
        (u : String → SettingVal → Except String Unit)
        (today : ℤ) (correct : Bool),
        updateDailyProgressE g u today correct = Except.ok ())
    ∧ (∀ (g : String → Except String SettingVal) (e : String),
        (∀ k, g k = Except.error e) →
        getLearningStatsE g = Except.ok defaultLearningStats)
    ∧ (∀ e : String,
        getDueReviews (Except.error e) = Except.ok ([] : List VocabItem)) := by
  refine ⟨?_, ?_, ?_, ?_⟩
  · intro g u today correct e h
    obtain ⟨s, hs⟩ := getLearningStatsE_ok g
    simp [updateLearningStatsE, hs, h, Except.bind, Bind.bind]
  · intro g u today correct
    unfold updateDailyProgressE
    dsimp only
    split
    · rfl
    · rfl
  · intro g e h
    simp [getLearningStatsE, h, Except.bind, Bind.bind]
  · intro e
    rfl

/-- Witness for the amended C2 at concrete failing stores. -/
theorem c2_error_propagation_amended_witness :
    updateLearningStatsE (fun _ => Except.ok SettingVal.null)
        (fun _ _ => Except.error "boom") 0 true = Except.error "boom"
    ∧ updateDailyProgressE (fun _ => Except.ok SettingVal.null)
        (fun _ _ => Except.ok ()) 0 true = Except.ok ()
    ∧ getLearningStatsE (fun _ => Except.error "boom")
        = Except.ok defaultLearningStats
    ∧ getDueReviews (Except.error "boom") = Except.ok ([] : List VocabItem) :=
  ⟨c2_error_propagation_amended.1 (fun _ => Except.ok SettingVal.null)
      (fun _ _ => Except.error "boom") 0 true "boom" (fun _ => rfl),
   c2_error_propagation_amended.2.1 (fun _ => Except.ok SettingVal.null)
      (fun _ _ => Except.ok ()) 0 true,
   c2_error_propagation_amended.2.2.1 (fun _ => Except.error "boom") "boom"
      (fun _ => rfl),
   c2_error_propagation_amended.2.2.2 "boom"⟩
